import Mathlib

/-!
Shallow embedding of the rust_task scheduling/waker adapter (task.cc /
task.hh) and of the seastar_rs FFI entry points, together with proofs about
the scheduling-state machine, the reference counting and the cross-thread
dispatch policy.

Modelling conventions:
* machine pointers (reactor*, void*) are modelled as natural numbers used
  only as identities;
* the uint64 reference counter is a Nat reduced modulo 2^64 wherever the
  source performs a wrapping fetch_add/fetch_sub;
* the ambient thread identity (seastar::engine(), seastar::this_shard_id())
  is passed explicitly as a context value;
* the reactor run queue and the two cross-thread submission channels
  (smp::submit_to message queues, alien::run_on ingress) are modelled
  explicitly, restricted to the entries that concern the one task under
  study;
* calling a member function of an already-deleted task is undefined
  behaviour in the source; the model leaves the world unchanged there and
  the theorems carry liveness hypotheses instead.
-/

/-- Scheduling state of a task: the enum class scheduling_state of rust_task
(idle, scheduled, executing, executing_with_pending_schedule, done). -/
inductive SchedState where
  | idle
  | scheduled
  | executing
  | executing_with_pending_schedule
  | done
deriving DecidableEq, Repr

/-- Identity of a thread: the reactor engine it belongs to (the address of
the seastar::reactor object, modelled as a number) and its shard id. Used
both for the captured owner identity (_origin_engine, _origin_shard) and for
the ambient identity of the calling thread. -/
@[ext] structure Ctx where
  engine : Nat
  shard : Nat
deriving DecidableEq, Repr

/-- Mutable per-task state: the atomic reference counter _ref_count (a
uint64, starting at 1) and the scheduling state _sched_state (starting
idle). -/
structure TaskCore where
  ref_count : Nat
  sched : SchedState
deriving DecidableEq, Repr

/-- Callables that rust_task hands to the cross-thread dispatcher
call_on_origin_thread: the lambda of rust_task::wake, which performs
do_wake() followed by dec_ref_local(), and the lambda of rust_task::dec_ref,
which performs delete this. -/
inductive Msg where
  | wakeAndRelease
  | deleteSelf
deriving DecidableEq, Repr

/-- The world around one rust_task: the captured owner identity (the const
fields _origin_engine and _origin_shard, kept outside the option so that the
model can still name them after deletion), the task object itself (none once
deleted), the number of run-queue entries for this task on the owning
worker's reactor, and the owning worker's two incoming queues of dispatched
callables (smp::submit_to messages from sibling shards, alien::run_on
messages from threads foreign to the engine). -/
@[ext] structure World where
  origin : Ctx
  task : Option TaskCore
  runQueue : Nat
  smpQueue : List Msg
  alienQueue : List Msg
deriving DecidableEq, Repr

/-- Modulus of the uint64 reference counter, 2^64. -/
def u64Mod : Nat := 18446744073709551616

/-- rust_task::do_wake, executed on the owning shard. Switches on
_sched_state: idle schedules the task (seastar::schedule, one new run-queue
entry) and marks it scheduled; executing becomes
executing_with_pending_schedule; scheduled, executing_with_pending_schedule
and done are no-ops. -/
def do_wake (w : World) : World :=
  match w.task with
  | none => w
  | some t =>
    match t.sched with
    | .idle =>
        { w with task := some { t with sched := .scheduled },
                 runQueue := w.runQueue + 1 }
    | .scheduled => w
    | .executing =>
        { w with task := some { t with sched := .executing_with_pending_schedule } }
    | .executing_with_pending_schedule => w
    | .done => w

/-- rust_task::dec_ref_local: _ref_count.fetch_sub(1, relaxed); if the value
before the decrement was 1, delete this. The uint64 decrement wraps modulo
2^64. -/
def dec_ref_local (w : World) : World :=
  match w.task with
  | none => w
  | some t =>
    if t.ref_count = 1 then { w with task := none }
    else { w with task := some { t with ref_count := (t.ref_count + (u64Mod - 1)) % u64Mod } }

/-- rust_task::inc_ref: _ref_count.fetch_add(1, relaxed), wrapping uint64
addition. -/
def inc_ref (w : World) : World :=
  match w.task with
  | none => w
  | some t => { w with task := some { t with ref_count := (t.ref_count + 1) % u64Mod } }

/-- The owning worker executing one dispatched callable: the wake lambda runs
do_wake() then dec_ref_local(); the deletion lambda runs delete this. -/
def run_msg : Msg → World → World
  | .wakeAndRelease, w => dec_ref_local (do_wake w)
  | .deleteSelf, w => { w with task := none }

/-- Embedding of the external seastar primitive smp::submit_to(target, f)
used by call_on_origin_thread: when the target shard is the calling shard
the callable is invoked immediately and synchronously at the call site;
otherwise it is appended to the target shard's incoming message queue. -/
def smp_submit_to (ctx : Ctx) (target : Nat) (m : Msg) (w : World) : World :=
  if target = ctx.shard then run_msg m w
  else { w with smpQueue := w.smpQueue ++ [m] }

/-- Embedding of the external seastar primitive alien::run_on(instance,
shard, f): submission from a thread foreign to the engine, always enqueued
on the foreign-ingress channel, never run inline. -/
def alien_run_on (m : Msg) (w : World) : World :=
  { w with alienQueue := w.alienQueue ++ [m] }

/-- rust_task::is_on_right_thread: the calling thread's engine is the
captured _origin_engine and its shard id is the captured _origin_shard. -/
def is_on_right_thread (ctx : Ctx) (w : World) : Bool :=
  ctx.engine == w.origin.engine && ctx.shard == w.origin.shard

/-- rust_task::call_on_origin_thread(f): when the calling thread's engine is
not the origin engine, submit the callable through the alien framework;
otherwise submit it with smp::submit_to to the origin shard. -/
def call_on_origin_thread (ctx : Ctx) (m : Msg) (w : World) : World :=
  if ctx.engine ≠ w.origin.engine then alien_run_on m w
  else smp_submit_to ctx w.origin.shard m w

/-- rust_task::dec_ref: _ref_count.fetch_sub(1, relaxed); if the value before
the decrement was 1, relay delete this to the origin thread through
call_on_origin_thread (the count itself has already dropped to 0 when the
deletion callable travels). -/
def dec_ref (ctx : Ctx) (w : World) : World :=
  match w.task with
  | none => w
  | some t =>
    if t.ref_count = 1 then
      call_on_origin_thread ctx .deleteSelf { w with task := some { t with ref_count := 0 } }
    else
      { w with task := some { t with ref_count := (t.ref_count + (u64Mod - 1)) % u64Mod } }

/-- rust_task::wake: unconditionally relays the callable performing
do_wake() followed by dec_ref_local() to the origin thread through
call_on_origin_thread. -/
def wake (ctx : Ctx) (w : World) : World :=
  call_on_origin_thread ctx .wakeAndRelease w

/-- rust_task::wake_by_ref: on the right thread perform do_wake directly;
otherwise take an extra reference with inc_ref and fall through to the
consuming wake. -/
def wake_by_ref (ctx : Ctx) (w : World) : World :=
  if is_on_right_thread ctx w then do_wake w
  else wake ctx (inc_ref w)

/-- Assignment to the _sched_state field (a no-op on a deleted task; in the
source such a write would be a use after free). -/
def set_sched (s : SchedState) (w : World) : World :=
  match w.task with
  | none => w
  | some t => { w with task := some { t with sched := s } }

/-- Read of the _sched_state field; none on a deleted task (in the source
such a read would be a use after free). -/
def sched_of (w : World) : Option SchedState :=
  w.task.map (fun t => t.sched)

/-- Read of the _ref_count field. -/
def ref_count_of (w : World) : Option Nat :=
  w.task.map (fun t => t.ref_count)

/-- rust_task::run_and_dispose, executed on the owning worker, parameterised
by the foreign poll call: poll maps the world at the start of the poll to
the world after the poll (the poll may itself have invoked waker entry
points) together with the bit it returned (true when _poll_fn returned 1,
i.e. the future completed and was destroyed). The source sets _sched_state
to executing, polls, on completion sets done and calls dec_ref_local, and
then unconditionally inspects _sched_state again: if it reads
executing_with_pending_schedule it re-schedules the task and writes
executing, otherwise it writes idle — also when the state had just been set
to done, and even when dec_ref_local has already deleted the object (a
use after free in the source; the model keeps a deleted task deleted). -/
def run_and_dispose (poll : World → World × Bool) (w : World) : World :=
  let w1 := set_sched .executing w
  let p := poll w1
  let w3 := if p.2 then dec_ref_local (set_sched .done p.1) else p.1
  if sched_of w3 = some .executing_with_pending_schedule then
    set_sched .executing { w3 with runQueue := w3.runQueue + 1 }
  else
    set_sched .idle w3

/-- Foreign calls that may be issued against the task: the four waker entry
points seastar_rs_waker_clone / _wake / _wake_by_ref / _dispose, each tagged
with the identity of the calling thread (clone does not consult it), plus
completeRun, a run of run_and_dispose on the owning worker whose poll
reports completion and itself issues no waker calls. -/
inductive RefOp where
  | clone
  | wakeOp (ctx : Ctx)
  | wakeByRefOp (ctx : Ctx)
  | disposeOp (ctx : Ctx)
  | completeRun
deriving DecidableEq, Repr

/-- Immediate effect of one foreign call on the world (effects relayed to
the owning worker are queued, not yet processed). -/
def applyRefOp : RefOp → World → World
  | .clone, w => inc_ref w
  | .wakeOp ctx, w => wake ctx w
  | .wakeByRefOp ctx, w => wake_by_ref ctx w
  | .disposeOp ctx, w => dec_ref ctx w
  | .completeRun, w => run_and_dispose (fun w1 => (w1, true)) w

/-- Immediate effect of a sequence of foreign calls, in order. -/
def applyRefOps : List RefOp → World → World
  | [], w => w
  | e :: es, w => applyRefOps es (applyRefOp e w)

/-- The owning worker processing a list of dispatched callables in order. -/
def run_msgs : List Msg → World → World
  | [], w => w
  | m :: ms, w => run_msgs ms (run_msg m w)

/-- The owning worker draining its incoming channels: processes every
pending smp::submit_to message, then every pending alien::run_on message.
Processing a message never enqueues another one, so a single pass empties
both queues. -/
def drain (w : World) : World :=
  let w1 := run_msgs w.smpQueue { w with smpQueue := [] }
  run_msgs w1.alienQueue { w1 with alienQueue := [] }

/-- Both incoming channels of the owning worker are empty. -/
def queues_empty (w : World) : Prop :=
  w.smpQueue = [] ∧ w.alienQueue = []

/-- One foreign call followed by the owning worker processing everything the
call queued. -/
def applySettled (e : RefOp) (w : World) : World :=
  drain (applyRefOp e w)

/-- A sequence of foreign calls, each fully processed before the next. -/
def applySettledList : List RefOp → World → World
  | [], w => w
  | e :: es, w => applySettledList es (applySettled e w)

/-- The world right after the rust_task constructor ran on thread ctx:
_ref_count = 1, _sched_state = idle, owner identity captured, nothing
queued anywhere. -/
def initWorld (ctx : Ctx) : World :=
  { origin := ctx, task := some { ref_count := 1, sched := .idle },
    runQueue := 0, smpQueue := [], alienQueue := [] }

/-- Net reference-count contribution of one foreign call once fully
processed: clone +1, consuming wake −1, wake_by_ref 0, dispose −1, a
completing run −1 (the completion release). -/
def refDelta : RefOp → Int
  | .clone => 1
  | .wakeOp _ => -1
  | .wakeByRefOp _ => 0
  | .disposeOp _ => -1
  | .completeRun => -1

/-- Reference count predicted by the specification for a task after a fully
processed sequence of foreign calls: the initial 1 plus the per-call
deltas. -/
def netCount (es : List RefOp) : Int :=
  1 + (es.map refDelta).sum

/-- Count a foreign call charges against the reference counter once fully
processed, as a step function on the counter value. -/
def nextCount (c : Nat) : RefOp → Nat
  | .clone => c + 1
  | .wakeOp _ => c - 1
  | .wakeByRefOp _ => c
  | .disposeOp _ => c - 1
  | .completeRun => c - 1

/-- Counter value after a fully processed sequence of foreign calls that
started at c. -/
def finalCount (c : Nat) : List RefOp → Nat
  | [] => c
  | e :: es => finalCount (nextCount c e) es

/-- Valid usage of the waker interface starting from counter value c: each
call is issued while the count is still positive (the caller holds a live
reference) and the count stays clear of the uint64 wrap. -/
def validFrom : Nat → List RefOp → Prop
  | _, [] => True
  | c, e :: es => 0 < c ∧ c + 1 < u64Mod ∧ validFrom (nextCount c e) es

/-- The calls among wake and wake_by_ref (the two waking entry points). -/
def isWakeCall : RefOp → Bool
  | .wakeOp _ => true
  | .wakeByRefOp _ => true
  | _ => false

/-- The calls that perform the do_wake transition inline, during the very
call: a wake or wake_by_ref issued on the owning thread o. Wakes from any
other thread are queued and take effect only when the owning worker
processes its channels. -/
def isInlineWake (o : Ctx) : RefOp → Bool
  | .wakeOp ctx => ctx == o
  | .wakeByRefOp ctx => ctx == o
  | _ => false

/-- Number of wakes delivered inline (on the owning thread o) in a sequence
of foreign calls. -/
def inlineWakeCount (o : Ctx) (es : List RefOp) : Nat :=
  (es.filter (isInlineWake o)).length

/-- What one seastar_rs_submit_to call makes arrive on the target shard: the
shard index, the list of data values on which a Rust spawner function was
invoked there, and the future handle stored in the rust_task that is
constructed and immediately run there (handles modelled as numbers). -/
structure SubmitOutcome where
  targetShard : Nat
  spawnerCalls : List Nat
  taskFuture : Nat
deriving DecidableEq, Repr

/-- Embeds seastar_rs_submit_to as defined in the .cc source: it receives
the raw future pointer itself (signature poll_fn, rust_future, shard) and
submits to the shard a lambda that constructs rust_task(poll_fn,
rust_future) and runs it once; no spawner function is ever invoked. -/
def seastar_rs_submit_to_defined (rust_future : Nat) (shard : Nat) : SubmitOutcome :=
  { targetShard := shard, spawnerCalls := [], taskFuture := rust_future }

/-- Modelled from the spec: the header task.hh declares seastar_rs_submit_to
with signature (poll_fn, spawn_fn, data, shard) and the spec says the call
constructs a Task via spawn_fn(data) on the target worker and runs it there;
under that contract the spawner is invoked exactly once on the target shard
with data, and the constructed task holds the future handle it returns. -/
def seastar_rs_submit_to_declared (spawn_fn : Nat → Nat) (data : Nat) (shard : Nat) :
    SubmitOutcome :=
  { targetShard := shard, spawnerCalls := [data], taskFuture := spawn_fn data }

/-- Emptiness of the owner's channels is decidable, so concrete worlds can
be checked by evaluation. -/
instance queuesEmptyDecidable (w : World) : Decidable (queues_empty w) := by
  unfold queues_empty
  infer_instance

/-- Valid usage is decidable, so concrete call sequences can be checked by
evaluation. -/
instance validFromDecidable : (c : Nat) → (es : List RefOp) → Decidable (validFrom c es)
  | _, [] => .isTrue trivial
  | c, e :: es =>
    have : Decidable (validFrom (nextCount c e) es) := validFromDecidable (nextCount c e) es
    by unfold validFrom; infer_instance

/-- Claim C1 (code divergence): run a task whose poll reports completion
while one waker reference is outstanding (_ref_count = 2). The run sets
_sched_state to done and releases exactly one reference locally (no message
is queued on any channel), but the unconditional tail of run_and_dispose
then overwrites the state with idle, so the surviving task is observed idle
after the run, not done as the claim states. -/
theorem c1_completion_final_state_is_idle :
    run_and_dispose (fun w1 => (w1, true))
      { origin := { engine := 0, shard := 0 },
        task := some { ref_count := 2, sched := .scheduled },
        runQueue := 0, smpQueue := [], alienQueue := [] }
    = { origin := { engine := 0, shard := 0 },
        task := some { ref_count := 1, sched := .idle },
        runQueue := 0, smpQueue := [], alienQueue := [] } := by
  decide

/-- Claim C2 (code divergence): the seastar_rs_submit_to that the .cc file
defines never invokes a spawner function on the target shard and stores the
raw second argument as the task's future handle, whereas the declared
contract (header and spec) invokes spawn_fn(data) there; at spawn_fn = (+1),
data = 7, shard = 3 the two outcomes differ. -/
theorem c2_submit_to_ignores_spawner :
    (seastar_rs_submit_to_defined 7 3).spawnerCalls = [] ∧
    (seastar_rs_submit_to_declared (fun d => d + 1) 7 3).spawnerCalls = [7] ∧
    seastar_rs_submit_to_defined 7 3 ≠ seastar_rs_submit_to_declared (fun d => d + 1) 7 3 := by
  refine ⟨rfl, rfl, ?_⟩
  intro h
  exact absurd (congrArg SubmitOutcome.taskFuture h) (by decide)

/-- do_wake never changes the owner identity. -/
@[simp] theorem do_wake_origin (w : World) : (do_wake w).origin = w.origin := by
  rcases w with ⟨o, task, rq, sq, aq⟩
  rcases task with _ | ⟨c, s⟩
  · rfl
  · cases s <;> rfl

/-- do_wake never touches the smp channel. -/
@[simp] theorem do_wake_smp (w : World) : (do_wake w).smpQueue = w.smpQueue := by
  rcases w with ⟨o, task, rq, sq, aq⟩
  rcases task with _ | ⟨c, s⟩
  · rfl
  · cases s <;> rfl

/-- do_wake never touches the alien channel. -/
@[simp] theorem do_wake_alien (w : World) : (do_wake w).alienQueue = w.alienQueue := by
  rcases w with ⟨o, task, rq, sq, aq⟩
  rcases task with _ | ⟨c, s⟩
  · rfl
  · cases s <;> rfl

/-- do_wake never touches the reference counter. -/
@[simp] theorem do_wake_ref (w : World) : ref_count_of (do_wake w) = ref_count_of w := by
  rcases w with ⟨o, task, rq, sq, aq⟩
  rcases task with _ | ⟨c, s⟩
  · rfl
  · cases s <;> rfl

/-- dec_ref_local only touches the task object. -/
@[simp] theorem dec_ref_local_origin (w : World) : (dec_ref_local w).origin = w.origin := by
  rcases w with ⟨o, task, rq, sq, aq⟩
  rcases task with _ | ⟨c, s⟩
  · rfl
  · by_cases h : c = 1 <;> simp [dec_ref_local, h]

/-- dec_ref_local never touches the run queue. -/
@[simp] theorem dec_ref_local_runQueue (w : World) : (dec_ref_local w).runQueue = w.runQueue := by
  rcases w with ⟨o, task, rq, sq, aq⟩
  rcases task with _ | ⟨c, s⟩
  · rfl
  · by_cases h : c = 1 <;> simp [dec_ref_local, h]

/-- dec_ref_local never touches the smp channel. -/
@[simp] theorem dec_ref_local_smp (w : World) : (dec_ref_local w).smpQueue = w.smpQueue := by
  rcases w with ⟨o, task, rq, sq, aq⟩
  rcases task with _ | ⟨c, s⟩
  · rfl
  · by_cases h : c = 1 <;> simp [dec_ref_local, h]

/-- dec_ref_local never touches the alien channel. -/
@[simp] theorem dec_ref_local_alien (w : World) : (dec_ref_local w).alienQueue = w.alienQueue := by
  rcases w with ⟨o, task, rq, sq, aq⟩
  rcases task with _ | ⟨c, s⟩
  · rfl
  · by_cases h : c = 1 <;> simp [dec_ref_local, h]

/-- inc_ref only touches the counter. -/
@[simp] theorem inc_ref_origin (w : World) : (inc_ref w).origin = w.origin := by
  rcases w with ⟨o, task, rq, sq, aq⟩
  rcases task with _ | ⟨c, s⟩ <;> rfl

/-- inc_ref never touches the run queue. -/
@[simp] theorem inc_ref_runQueue (w : World) : (inc_ref w).runQueue = w.runQueue := by
  rcases w with ⟨o, task, rq, sq, aq⟩
  rcases task with _ | ⟨c, s⟩ <;> rfl

/-- inc_ref never touches the smp channel. -/
@[simp] theorem inc_ref_smp (w : World) : (inc_ref w).smpQueue = w.smpQueue := by
  rcases w with ⟨o, task, rq, sq, aq⟩
  rcases task with _ | ⟨c, s⟩ <;> rfl

/-- inc_ref never touches the alien channel. -/
@[simp] theorem inc_ref_alien (w : World) : (inc_ref w).alienQueue = w.alienQueue := by
  rcases w with ⟨o, task, rq, sq, aq⟩
  rcases task with _ | ⟨c, s⟩ <;> rfl

/-- inc_ref never touches the scheduling state. -/
@[simp] theorem inc_ref_sched (w : World) : sched_of (inc_ref w) = sched_of w := by
  rcases w with ⟨o, task, rq, sq, aq⟩
  rcases task with _ | ⟨c, s⟩ <;> rfl

/-- Processing a dispatched callable never changes the owner identity. -/
@[simp] theorem run_msg_origin (m : Msg) (w : World) : (run_msg m w).origin = w.origin := by
  cases m <;> simp [run_msg]

/-- Processing a dispatched callable never enqueues another one. -/
@[simp] theorem run_msg_smp (m : Msg) (w : World) : (run_msg m w).smpQueue = w.smpQueue := by
  cases m <;> simp [run_msg]

/-- Processing a dispatched callable never enqueues on the alien channel. -/
@[simp] theorem run_msg_alien (m : Msg) (w : World) : (run_msg m w).alienQueue = w.alienQueue := by
  cases m <;> simp [run_msg]

/-- Draining a worker whose channels are already empty does nothing. -/
theorem drain_empty (w : World) (h : queues_empty w) : drain w = w := by
  obtain ⟨h1, h2⟩ := h
  rcases w with ⟨o, task, rq, sq, aq⟩
  simp only at h1 h2
  subst h1; subst h2
  rfl

/-- Settling lemma: when the owner's channels are empty, one dispatched
callable followed by a drain has exactly the effect of the owning worker
running that callable, whichever of the three routes it took. -/
theorem settle_call (ctx : Ctx) (m : Msg) (w : World) (h : queues_empty w) :
    drain (call_on_origin_thread ctx m w) = run_msg m w := by
  obtain ⟨h1, h2⟩ := h
  unfold call_on_origin_thread
  by_cases hE : ctx.engine = w.origin.engine
  · simp only [hE, ne_eq, not_true_eq_false, if_false, smp_submit_to]
    by_cases hS : w.origin.shard = ctx.shard
    · simp only [hS, if_true]
      exact drain_empty _ ⟨by simp [h1], by simp [h2]⟩
    · simp only [hS, if_false]
      rcases w with ⟨o, task, rq, sq, aq⟩
      simp only at h1 h2
      subst h1; subst h2
      refine World.ext ?_ ?_ ?_ ?_ ?_ <;> simp [drain, run_msgs]
  · simp only [ne_eq, hE, not_false_eq_true, if_true, alien_run_on]
    rcases w with ⟨o, task, rq, sq, aq⟩
    simp only at h1 h2
    subst h1; subst h2
    refine World.ext ?_ ?_ ?_ ?_ ?_ <;> simp [drain, run_msgs]

/-- A uint64 decrement of a value in range behaves like the exact
decrement. -/
theorem u64_dec_eq (c : Nat) (h1 : 1 ≤ c) (h2 : c < u64Mod) :
    (c + (u64Mod - 1)) % u64Mod = c - 1 := by
  unfold u64Mod at *
  omega

/-- A uint64 increment of a value clear of the wrap behaves like the exact
increment. -/
theorem u64_inc_eq (c : Nat) (h : c + 1 < u64Mod) : (c + 1) % u64Mod = c + 1 :=
  Nat.mod_eq_of_lt h

/-- do_wake on an idle task: schedule it and mark it scheduled. -/
theorem do_wake_idle (w : World) (c : Nat)
    (hw : w.task = some { ref_count := c, sched := .idle }) :
    do_wake w = { w with task := some { ref_count := c, sched := .scheduled },
                         runQueue := w.runQueue + 1 } := by
  rcases w with ⟨o, task, rq, sq, aq⟩
  simp only at hw
  subst hw
  rfl

/-- do_wake on a scheduled task is a no-op. -/
theorem do_wake_scheduled (w : World) (c : Nat)
    (hw : w.task = some { ref_count := c, sched := .scheduled }) :
    do_wake w = w := by
  rcases w with ⟨o, task, rq, sq, aq⟩
  simp only at hw
  subst hw
  rfl

/-- do_wake on an executing task records the pending reschedule. -/
theorem do_wake_executing (w : World) (c : Nat)
    (hw : w.task = some { ref_count := c, sched := .executing }) :
    do_wake w = { w with task := some { ref_count := c,
                                        sched := .executing_with_pending_schedule } } := by
  rcases w with ⟨o, task, rq, sq, aq⟩
  simp only at hw
  subst hw
  rfl

/-- do_wake on a task with a pending reschedule is a no-op. -/
theorem do_wake_pending (w : World) (c : Nat)
    (hw : w.task = some { ref_count := c,
                          sched := .executing_with_pending_schedule }) :
    do_wake w = w := by
  rcases w with ⟨o, task, rq, sq, aq⟩
  simp only at hw
  subst hw
  rfl

/-- do_wake on a finished task is a no-op. -/
theorem do_wake_done (w : World) (c : Nat)
    (hw : w.task = some { ref_count := c, sched := .done }) :
    do_wake w = w := by
  rcases w with ⟨o, task, rq, sq, aq⟩
  simp only at hw
  subst hw
  rfl

/-- do_wake keeps the task alive with the same count, in some state. -/
theorem do_wake_task (w : World) (c : Nat) (s : SchedState)
    (hw : w.task = some { ref_count := c, sched := s }) :
    ∃ s2, (do_wake w).task = some { ref_count := c, sched := s2 } := by
  rcases w with ⟨o, task, rq, sq, aq⟩
  simp only at hw
  subst hw
  cases s <;> exact ⟨_, rfl⟩

/-- Effect of dec_ref_local on a live task with an in-range counter: delete
at 1, otherwise exact decrement. -/
theorem dec_ref_local_task (w : World) (c : Nat) (s : SchedState)
    (hw : w.task = some { ref_count := c, sched := s })
    (h1 : 1 ≤ c) (h2 : c < u64Mod) :
    dec_ref_local w = if c = 1 then { w with task := none }
                      else { w with task := some { ref_count := c - 1, sched := s } } := by
  rcases w with ⟨o, task, rq, sq, aq⟩
  simp only at hw
  subst hw
  by_cases hc : c = 1
  · simp [dec_ref_local, hc]
  · simp [dec_ref_local, hc, u64_dec_eq c h1 h2]

/-- Effect of inc_ref on a live task with a counter clear of the wrap. -/
theorem inc_ref_task (w : World) (c : Nat) (s : SchedState)
    (hw : w.task = some { ref_count := c, sched := s })
    (hb : c + 1 < u64Mod) :
    inc_ref w = { w with task := some { ref_count := c + 1, sched := s } } := by
  rcases w with ⟨o, task, rq, sq, aq⟩
  simp only at hw
  subst hw
  simp [inc_ref, u64_inc_eq c hb]

/-- Effect of a _sched_state assignment on a live task. -/
theorem set_sched_task (w : World) (c : Nat) (s s2 : SchedState)
    (hw : w.task = some { ref_count := c, sched := s }) :
    set_sched s2 w = { w with task := some { ref_count := c, sched := s2 } } := by
  rcases w with ⟨o, task, rq, sq, aq⟩
  simp only at hw
  subst hw
  rfl

/-- The identity check holds exactly when both the engine identity and the
shard index of the caller match the captured owner identity. -/
theorem is_on_right_thread_iff (ctx : Ctx) (w : World) :
    is_on_right_thread ctx w = true ↔
      (ctx.engine = w.origin.engine ∧ ctx.shard = w.origin.shard) := by
  simp [is_on_right_thread]

/-- On the right thread, the dispatcher runs the callable inline: the result
is exactly the owning worker running it, with nothing queued. -/
theorem call_inline (ctx : Ctx) (m : Msg) (w : World)
    (hon : is_on_right_thread ctx w = true) :
    call_on_origin_thread ctx m w = run_msg m w := by
  obtain ⟨hE, hS⟩ := (is_on_right_thread_iff ctx w).mp hon
  simp [call_on_origin_thread, smp_submit_to, hE, hS.symm]

/-- Off the right thread, the dispatcher only queues the callable: the task
object, the owner identity and the run queue are untouched. -/
theorem call_queued (ctx : Ctx) (m : Msg) (w : World)
    (hoff : is_on_right_thread ctx w = false) :
    (call_on_origin_thread ctx m w).task = w.task ∧
    (call_on_origin_thread ctx m w).origin = w.origin ∧
    (call_on_origin_thread ctx m w).runQueue = w.runQueue := by
  have hoff2 : ¬(ctx.engine = w.origin.engine ∧ ctx.shard = w.origin.shard) := by
    intro hand
    exact absurd ((is_on_right_thread_iff ctx w).mpr hand) (by simp [hoff])
  unfold call_on_origin_thread smp_submit_to alien_run_on
  by_cases hE : ctx.engine = w.origin.engine
  · have hS : ¬(w.origin.shard = ctx.shard) := by
      intro h
      exact hoff2 ⟨hE, h.symm⟩
    simp [hE, hS]
  · simp [hE]

/-- A settled consuming wake is the owning worker running do_wake followed
by dec_ref_local, whichever thread issued it. -/
theorem settled_wakeOp (ctx : Ctx) (w : World) (hq : queues_empty w) :
    applySettled (.wakeOp ctx) w = dec_ref_local (do_wake w) := by
  unfold applySettled applyRefOp wake
  rw [settle_call ctx _ w hq]
  rfl

/-- A settled wake_by_ref is exactly do_wake, whichever thread issued it:
on the right thread directly, off it the extra reference taken before the
relay is given back by the relayed release. -/
theorem settled_wakeByRefOp (ctx : Ctx) (w : World) (c : Nat) (s : SchedState)
    (hw : w.task = some { ref_count := c, sched := s }) (hq : queues_empty w)
    (h1 : 1 ≤ c) (hb : c + 1 < u64Mod) :
    applySettled (.wakeByRefOp ctx) w = do_wake w := by
  simp only [applySettled, applyRefOp, wake_by_ref]
  by_cases hon : is_on_right_thread ctx w = true
  · rw [if_pos hon]
    exact drain_empty _ ⟨by simp [hq.1], by simp [hq.2]⟩
  · rw [if_neg hon]
    unfold wake
    have hq2 : queues_empty (inc_ref w) := ⟨by simp [hq.1], by simp [hq.2]⟩
    rw [settle_call ctx _ (inc_ref w) hq2]
    show dec_ref_local (do_wake (inc_ref w)) = do_wake w
    rw [inc_ref_task w c s hw hb]
    rcases w with ⟨o, task, rq, sq, aq⟩
    simp only at hw
    subst hw
    have hne : ¬(c + 1 = 1) := by omega
    have e2 : (c + 1 + (u64Mod - 1)) % u64Mod = c := by
      unfold u64Mod at *
      omega
    cases s <;> simp [do_wake, dec_ref_local, hne, e2]

/-- Effect of dec_ref on a live task with an in-range counter: at count 1
the counter drops to 0 and the deletion callable is handed to the
dispatcher, otherwise the counter is just decremented. -/
theorem dec_ref_task (ctx : Ctx) (w : World) (c : Nat) (s : SchedState)
    (hw : w.task = some { ref_count := c, sched := s })
    (h1 : 1 ≤ c) (h2 : c < u64Mod) :
    dec_ref ctx w =
      if c = 1 then
        call_on_origin_thread ctx .deleteSelf
          { w with task := some { ref_count := 0, sched := s } }
      else { w with task := some { ref_count := c - 1, sched := s } } := by
  rcases w with ⟨o, task, rq, sq, aq⟩
  simp only at hw
  subst hw
  by_cases hc : c = 1
  · simp [dec_ref, hc]
  · simp [dec_ref, hc, u64_dec_eq c h1 h2]

/-- A settled dispose deletes the task exactly at count 1 and otherwise
decrements the counter, whichever thread issued it. -/
theorem settled_disposeOp (ctx : Ctx) (w : World) (c : Nat) (s : SchedState)
    (hw : w.task = some { ref_count := c, sched := s }) (hq : queues_empty w)
    (h1 : 1 ≤ c) (h2 : c < u64Mod) :
    applySettled (.disposeOp ctx) w =
      if c = 1 then { w with task := none }
      else { w with task := some { ref_count := c - 1, sched := s } } := by
  simp only [applySettled, applyRefOp]
  rw [dec_ref_task ctx w c s hw h1 h2]
  by_cases hc : c = 1
  · rw [if_pos hc, if_pos hc]
    rw [settle_call ctx .deleteSelf
      { w with task := some { ref_count := 0, sched := s } } ⟨hq.1, hq.2⟩]
    rfl
  · rw [if_neg hc, if_neg hc]
    apply drain_empty
    exact ⟨hq.1, hq.2⟩

/-- A run of run_and_dispose whose poll reports completion and issues no
waker calls: the state is set to done and one reference is released locally,
then the tail of run_and_dispose overwrites the state of a surviving task
with idle (and when the count was 1, the object is deleted and the tail
touches freed memory in the source). -/
theorem completeRun_eq (w : World) (c : Nat) (s : SchedState)
    (hw : w.task = some { ref_count := c, sched := s })
    (h1 : 1 ≤ c) (h2 : c < u64Mod) :
    run_and_dispose (fun w1 => (w1, true)) w =
      if c = 1 then { w with task := none }
      else { w with task := some { ref_count := c - 1, sched := .idle } } := by
  rcases w with ⟨o, task, rq, sq, aq⟩
  simp only at hw
  subst hw
  by_cases hc : c = 1
  · simp [run_and_dispose, set_sched, dec_ref_local, sched_of, hc]
  · simp [run_and_dispose, set_sched, dec_ref_local, sched_of, hc, u64_dec_eq c h1 h2]

/-- A settled completing run releases one reference on the owning worker:
it deletes the task exactly at count 1, and otherwise decrements the counter
and leaves the survivor in state idle. -/
theorem settled_completeRun (w : World) (c : Nat) (s : SchedState)
    (hw : w.task = some { ref_count := c, sched := s }) (hq : queues_empty w)
    (h1 : 1 ≤ c) (h2 : c < u64Mod) :
    applySettled .completeRun w =
      if c = 1 then { w with task := none }
      else { w with task := some { ref_count := c - 1, sched := .idle } } := by
  simp only [applySettled, applyRefOp]
  rw [completeRun_eq w c s hw h1 h2]
  by_cases hc : c = 1
  · rw [if_pos hc]
    apply drain_empty
    exact ⟨hq.1, hq.2⟩
  · rw [if_neg hc]
    apply drain_empty
    exact ⟨hq.1, hq.2⟩

/-- A settled clone increments the counter by exactly one and changes
nothing else. -/
theorem settled_clone (w : World) (c : Nat) (s : SchedState)
    (hw : w.task = some { ref_count := c, sched := s }) (hq : queues_empty w)
    (hb : c + 1 < u64Mod) :
    applySettled .clone w
      = { w with task := some { ref_count := c + 1, sched := s } } := by
  simp only [applySettled, applyRefOp]
  rw [inc_ref_task w c s hw hb]
  apply drain_empty
  exact ⟨hq.1, hq.2⟩

/-- Under valid usage the step-by-step Nat counter agrees with the integer
net count of the specification. -/
theorem finalCount_eq_net (es : List RefOp) : ∀ c : Nat, validFrom c es →
    (finalCount c es : Int) = c + (es.map refDelta).sum := by
  induction es with
  | nil =>
    intro c _
    simp [finalCount]
  | cons e es ih =>
    intro c hv
    obtain ⟨hpos, _hb, hv2⟩ := hv
    have hstep : (nextCount c e : Int) = c + refDelta e := by
      cases e <;> simp [nextCount, refDelta] <;> omega
    show (finalCount (nextCount c e) es : Int) = c + ((e :: es).map refDelta).sum
    rw [ih _ hv2, hstep]
    simp [List.sum_cons]
    ring

/-- Induction core of the reference-count invariant: starting from a live
task with positive in-range counter c and drained channels, any valid
sequence of fully processed foreign calls leaves the task alive with
counter finalCount c es when that is positive, and deleted exactly when it
is zero. -/
theorem c5_aux (es : List RefOp) : ∀ (w : World) (c : Nat) (s : SchedState),
    w.task = some { ref_count := c, sched := s } → queues_empty w →
    0 < c → validFrom c es →
    (0 < finalCount c es →
      ∃ s2, (applySettledList es w).task
        = some { ref_count := finalCount c es, sched := s2 }) ∧
    (finalCount c es = 0 → (applySettledList es w).task = none) := by
  induction es with
  | nil =>
    intro w c s hw _ hc _
    refine ⟨fun _ => ⟨s, ?_⟩, fun h0 => absurd h0 (by simp only [finalCount]; omega)⟩
    simpa [applySettledList, finalCount] using hw
  | cons e es ih =>
    intro w c s hw hq hc hv
    obtain ⟨hpos, hb, hv2⟩ := hv
    cases e with
    | clone =>
      have hs := settled_clone w c s hw hq hb
      simp only [applySettledList, finalCount, nextCount, hs]
      exact ih _ (c + 1) s rfl ⟨hq.1, hq.2⟩ (by omega) hv2
    | wakeOp ctx =>
      have hs := settled_wakeOp ctx w hq
      obtain ⟨s2, hdw⟩ := do_wake_task w c s hw
      have hdec := dec_ref_local_task (do_wake w) c s2 hdw hpos (by omega)
      by_cases hc1 : c = 1
      · cases es with
        | cons e2 es2 =>
          obtain ⟨h00, -, -⟩ := hv2
          rw [nextCount, hc1] at h00
          exact absurd h00 (by omega)
        | nil =>
          simp only [applySettledList, finalCount, nextCount, hs, hdec, if_pos hc1]
          exact ⟨fun h => absurd h (by omega), fun _ => trivial⟩
      · simp only [applySettledList, finalCount, nextCount, hs, hdec, if_neg hc1]
        exact ih _ (c - 1) s2 rfl ⟨by simp [hq.1], by simp [hq.2]⟩ (by omega) hv2
    | wakeByRefOp ctx =>
      have hs := settled_wakeByRefOp ctx w c s hw hq hpos hb
      obtain ⟨s2, hdw⟩ := do_wake_task w c s hw
      simp only [applySettledList, finalCount, nextCount, hs]
      exact ih _ c s2 hdw ⟨by simp [hq.1], by simp [hq.2]⟩ hc hv2
    | disposeOp ctx =>
      have hs := settled_disposeOp ctx w c s hw hq hpos (by omega)
      by_cases hc1 : c = 1
      · cases es with
        | cons e2 es2 =>
          obtain ⟨h00, -, -⟩ := hv2
          rw [nextCount, hc1] at h00
          exact absurd h00 (by omega)
        | nil =>
          simp only [applySettledList, finalCount, nextCount, hs, if_pos hc1]
          exact ⟨fun h => absurd h (by omega), fun _ => trivial⟩
      · simp only [applySettledList, finalCount, nextCount, hs, if_neg hc1]
        exact ih _ (c - 1) s rfl ⟨hq.1, hq.2⟩ (by omega) hv2
    | completeRun =>
      have hs := settled_completeRun w c s hw hq hpos (by omega)
      by_cases hc1 : c = 1
      · cases es with
        | cons e2 es2 =>
          obtain ⟨h00, -, -⟩ := hv2
          rw [nextCount, hc1] at h00
          exact absurd h00 (by omega)
        | nil =>
          simp only [applySettledList, finalCount, nextCount, hs, if_pos hc1]
          exact ⟨fun h => absurd h (by omega), fun _ => trivial⟩
      · simp only [applySettledList, finalCount, nextCount, hs, if_neg hc1]
        exact ih _ (c - 1) .idle rfl ⟨hq.1, hq.2⟩ (by omega) hv2

/-- Claim C5: _ref_count starts at 1 when the rust_task is constructed,
moves by exactly +1 for every waker clone, −1 for every waker disposal, −1
for every consuming wake, 0 for wake_by_ref, and −1 for the task's own
completion; under valid usage (every call issued while the count is still
positive and clear of the uint64 wrap) the task survives with its counter
equal to the net count exactly while the net count is positive — so a task
with outstanding waker references is never destroyed — and is destroyed
exactly when the net count reaches zero. -/
theorem c5_ref_count_governs_destruction (o : Ctx) (es : List RefOp)
    (hv : validFrom 1 es) :
    (initWorld o).task = some { ref_count := 1, sched := .idle } ∧
    (0 < netCount es →
      ∃ t, (applySettledList es (initWorld o)).task = some t ∧
        (t.ref_count : Int) = netCount es) ∧
    (netCount es = 0 → (applySettledList es (initWorld o)).task = none) := by
  have hnet : (finalCount 1 es : Int) = netCount es := by
    rw [finalCount_eq_net es 1 hv]
    simp [netCount]
  have h := c5_aux es (initWorld o) 1 .idle rfl ⟨rfl, rfl⟩ (by omega) hv
  refine ⟨rfl, ?_, ?_⟩
  · intro hpos
    have hposN : 0 < finalCount 1 es := by omega
    obtain ⟨s2, hts⟩ := h.1 hposN
    exact ⟨_, hts, hnet⟩
  · intro h0
    apply h.2
    omega

/-- Witness for C5 at a concrete trace: one clone, one consuming wake from
a sibling shard and one dispose from a foreign thread bring the net count
from 1 to 0, and the task world indeed ends with the task destroyed. -/
theorem c5_witness :
    (applySettledList
        [RefOp.clone, RefOp.wakeOp { engine := 0, shard := 1 },
          RefOp.disposeOp { engine := 1, shard := 0 }]
        (initWorld { engine := 0, shard := 0 })).task = none := by
  have h := c5_ref_count_governs_destruction { engine := 0, shard := 0 }
    [RefOp.clone, RefOp.wakeOp { engine := 0, shard := 1 },
      RefOp.disposeOp { engine := 1, shard := 0 }] (by decide)
  exact h.2.2 (by decide)

/-- Once the task is in state scheduled, further settled wake and
wake_by_ref calls (from any threads) never enqueue it again: the run-queue
entry count is unchanged and the task stays scheduled. -/
theorem c3_aux (es : List RefOp) : ∀ (w : World) (c : Nat),
    w.task = some { ref_count := c, sched := .scheduled } → queues_empty w →
    (∀ e ∈ es, isWakeCall e = true) → validFrom c es → 0 < finalCount c es →
    (applySettledList es w).task
      = some { ref_count := finalCount c es, sched := .scheduled } ∧
    (applySettledList es w).runQueue = w.runQueue := by
  induction es with
  | nil =>
    intro w c hw _ _ _ _
    exact ⟨by simpa [applySettledList, finalCount] using hw, rfl⟩
  | cons e es ih =>
    intro w c hw hq hwake hv hfin
    obtain ⟨hpos, hb, hv2⟩ := hv
    have hnoop : do_wake w = w := do_wake_scheduled w c hw
    cases e with
    | clone =>
      have hfalse := hwake RefOp.clone (List.mem_cons_self _ _)
      simp [isWakeCall] at hfalse
    | disposeOp ctx =>
      have hfalse := hwake (RefOp.disposeOp ctx) (List.mem_cons_self _ _)
      simp [isWakeCall] at hfalse
    | completeRun =>
      have hfalse := hwake RefOp.completeRun (List.mem_cons_self _ _)
      simp [isWakeCall] at hfalse
    | wakeOp ctx =>
      have hs := settled_wakeOp ctx w hq
      have hdec := dec_ref_local_task w c .scheduled hw hpos (by omega)
      by_cases hc1 : c = 1
      · cases es with
        | cons e2 es2 =>
          obtain ⟨h00, -, -⟩ := hv2
          rw [nextCount, hc1] at h00
          exact absurd h00 (by omega)
        | nil =>
          rw [show finalCount c [RefOp.wakeOp ctx] = c - 1 from rfl, hc1] at hfin
          exact absurd hfin (by omega)
      · simp only [applySettledList, finalCount, nextCount, hs, hnoop, hdec,
          if_neg hc1] at hfin ⊢
        exact ih _ (c - 1) rfl ⟨hq.1, hq.2⟩
          (fun e2 he2 => hwake e2 (List.mem_cons_of_mem _ he2)) hv2 hfin
    | wakeByRefOp ctx =>
      have hs := settled_wakeByRefOp ctx w c .scheduled hw hq hpos hb
      simp only [applySettledList, finalCount, nextCount, hs, hnoop] at hfin ⊢
      exact ih w c hw hq
        (fun e2 he2 => hwake e2 (List.mem_cons_of_mem _ he2)) hv2 hfin

/-- The wake transition table of rust_task::do_wake, exactly as the claim
states it: idle goes to scheduled with exactly one enqueue; scheduled,
executing_with_pending_schedule and done are unchanged with no enqueue;
executing goes to executing_with_pending_schedule with no enqueue. -/
theorem do_wake_transition_table : ∀ (w : World) (c : Nat) (s : SchedState),
    w.task = some { ref_count := c, sched := s } →
    (s = .idle →
      do_wake w = { w with task := some { ref_count := c, sched := .scheduled },
                           runQueue := w.runQueue + 1 }) ∧
    (s = .scheduled → do_wake w = w) ∧
    (s = .executing →
      do_wake w = { w with task := some { ref_count := c, sched := .executing_with_pending_schedule } }) ∧
    (s = .executing_with_pending_schedule → do_wake w = w) ∧
    (s = .done → do_wake w = w) := by
  intro w c s hw
  refine ⟨?_, ?_, ?_, ?_, ?_⟩ <;> intro hseq <;> subst hseq
  · exact do_wake_idle w c hw
  · exact do_wake_scheduled w c hw
  · exact do_wake_executing w c hw
  · exact do_wake_pending w c hw
  · exact do_wake_done w c hw

/-- Any nonempty valid sequence of settled wake and wake_by_ref calls
against an idle task enqueues it exactly once and leaves it scheduled. -/
theorem wake_sequence_single_enqueue : ∀ (es : List RefOp) (w : World) (c : Nat),
    w.task = some { ref_count := c, sched := .idle } → queues_empty w →
    es ≠ [] → (∀ e ∈ es, isWakeCall e = true) → validFrom c es →
    0 < finalCount c es →
    (applySettledList es w).runQueue = w.runQueue + 1 ∧
    (applySettledList es w).task
      = some { ref_count := finalCount c es, sched := .scheduled } := by
  intro es w c hw hq hne hwake hv hfin
  cases es with
  | nil => exact absurd rfl hne
  | cons e es2 =>
    obtain ⟨hpos, hb, hv2⟩ := hv
    have hidle := do_wake_idle w c hw
    cases e with
    | clone =>
      have hfalse := hwake RefOp.clone (List.mem_cons_self _ _)
      simp [isWakeCall] at hfalse
    | disposeOp ctx =>
      have hfalse := hwake (RefOp.disposeOp ctx) (List.mem_cons_self _ _)
      simp [isWakeCall] at hfalse
    | completeRun =>
      have hfalse := hwake RefOp.completeRun (List.mem_cons_self _ _)
      simp [isWakeCall] at hfalse
    | wakeOp ctx =>
      have hs := settled_wakeOp ctx w hq
      by_cases hc1 : c = 1
      · cases es2 with
        | cons e2 es3 =>
          obtain ⟨h00, -, -⟩ := hv2
          rw [nextCount, hc1] at h00
          exact absurd h00 (by omega)
        | nil =>
          rw [show finalCount c [RefOp.wakeOp ctx] = c - 1 from rfl, hc1] at hfin
          exact absurd hfin (by omega)
      · have hdec := dec_ref_local_task
          { w with task := some { ref_count := c, sched := .scheduled },
                   runQueue := w.runQueue + 1 }
          c .scheduled rfl hpos (by omega)
        simp only [applySettledList, finalCount, nextCount, hs, hidle, hdec,
          if_neg hc1] at hfin ⊢
        have haux := c3_aux es2
          { w with task := some { ref_count := c - 1, sched := .scheduled },
                   runQueue := w.runQueue + 1 }
          (c - 1) rfl ⟨hq.1, hq.2⟩
          (fun e2 he2 => hwake e2 (List.mem_cons_of_mem _ he2)) hv2 hfin
        exact ⟨haux.2, haux.1⟩
    | wakeByRefOp ctx =>
      have hs := settled_wakeByRefOp ctx w c .idle hw hq hpos hb
      simp only [applySettledList, finalCount, nextCount, hs, hidle] at hfin ⊢
      have haux := c3_aux es2
        { w with task := some { ref_count := c, sched := .scheduled },
                 runQueue := w.runQueue + 1 }
        c rfl ⟨hq.1, hq.2⟩
        (fun e2 he2 => hwake e2 (List.mem_cons_of_mem _ he2)) hv2 hfin
      exact ⟨haux.2, haux.1⟩

/-- Claim C3: every wake request processed on the owning worker follows
exactly the do_wake transition table — idle to scheduled with exactly one
enqueue onto the run queue, scheduled and executing_with_pending_schedule
and done unchanged with no enqueue, executing to
executing_with_pending_schedule with no enqueue — and consequently any
nonempty valid sequence of wake and wake_by_ref calls issued while the task
is idle enqueues the task exactly once before its next run. -/
theorem c3_wake_transitions_and_single_enqueue :
    (∀ (w : World) (c : Nat) (s : SchedState),
      w.task = some { ref_count := c, sched := s } →
      (s = .idle →
        do_wake w = { w with task := some { ref_count := c, sched := .scheduled },
                             runQueue := w.runQueue + 1 }) ∧
      (s = .scheduled → do_wake w = w) ∧
      (s = .executing →
        do_wake w = { w with task := some { ref_count := c, sched := .executing_with_pending_schedule } }) ∧
      (s = .executing_with_pending_schedule → do_wake w = w) ∧
      (s = .done → do_wake w = w)) ∧
    (∀ (es : List RefOp) (w : World) (c : Nat),
      w.task = some { ref_count := c, sched := .idle } → queues_empty w →
      es ≠ [] → (∀ e ∈ es, isWakeCall e = true) → validFrom c es →
      0 < finalCount c es →
      (applySettledList es w).runQueue = w.runQueue + 1 ∧
      (applySettledList es w).task
        = some { ref_count := finalCount c es, sched := .scheduled }) :=
  ⟨do_wake_transition_table, wake_sequence_single_enqueue⟩

/-- Witness for C3 at a concrete input: a wake_by_ref from a sibling shard
followed by a consuming wake from a foreign thread, against an idle task
with three references, enqueue the task exactly once. -/
theorem c3_witness :
    (applySettledList
        [RefOp.wakeByRefOp { engine := 0, shard := 1 },
          RefOp.wakeOp { engine := 5, shard := 7 }]
        { origin := { engine := 0, shard := 0 },
          task := some { ref_count := 3, sched := .idle },
          runQueue := 0, smpQueue := [], alienQueue := [] }).runQueue = 0 + 1 :=
  (c3_wake_transitions_and_single_enqueue.2
    [RefOp.wakeByRefOp { engine := 0, shard := 1 },
      RefOp.wakeOp { engine := 5, shard := 7 }]
    { origin := { engine := 0, shard := 0 },
      task := some { ref_count := 3, sched := .idle },
      runQueue := 0, smpQueue := [], alienQueue := [] } 3 rfl ⟨rfl, rfl⟩
    (by decide) (by decide) (by decide) (by decide)).1

/-- The identity check holds exactly when the caller's identity is the
captured owner identity. -/
theorem is_on_right_thread_eq_ctx (ctx : Ctx) (w : World) :
    is_on_right_thread ctx w = true ↔ ctx = w.origin := by
  rw [is_on_right_thread_iff]
  constructor
  · rintro ⟨h1, h2⟩
    exact Ctx.ext h1 h2
  · rintro rfl
    exact ⟨rfl, rfl⟩

/-- An inline consuming wake while the task is executing (or already marked
for reschedule): the owning worker runs do_wake, which lands the state on
executing_with_pending_schedule without touching the run queue, and then
releases one reference. -/
theorem wake_inline_effect (w : World) (c : Nat) (s : SchedState)
    (hw : w.task = some { ref_count := c, sched := s })
    (hexec : s = .executing ∨ s = .executing_with_pending_schedule)
    (h2 : 2 ≤ c) (hb : c < u64Mod) :
    dec_ref_local (do_wake w)
      = { w with task := some { ref_count := c - 1,
                                sched := .executing_with_pending_schedule } } := by
  rcases hexec with h | h <;> subst h
  · rw [do_wake_executing w c hw,
      dec_ref_local_task _ c .executing_with_pending_schedule rfl (by omega) hb,
      if_neg (by omega)]
  · rw [do_wake_pending w c hw,
      dec_ref_local_task w c .executing_with_pending_schedule hw (by omega) hb,
      if_neg (by omega)]

/-- One foreign call arriving while the poll is running on the owning worker
(state executing or executing_with_pending_schedule): the counter moves by
at most one, the run queue and owner identity are untouched, and the state
becomes executing_with_pending_schedule exactly when the call delivers a
wake inline on the owning thread. -/
theorem inrun_step (e : RefOp) (w : World) (c : Nat) (s : SchedState)
    (hw : w.task = some { ref_count := c, sched := s })
    (hexec : s = .executing ∨ s = .executing_with_pending_schedule)
    (hne : e ≠ .completeRun) (h2 : 2 ≤ c) (hb : c + 2 < u64Mod) :
    ∃ c2, (c - 1 ≤ c2 ∧ c2 ≤ c + 1) ∧
      (applyRefOp e w).task = some { ref_count := c2, sched := if s = .executing_with_pending_schedule ∨ isInlineWake w.origin e = true then .executing_with_pending_schedule else .executing } ∧
      (applyRefOp e w).runQueue = w.runQueue ∧
      (applyRefOp e w).origin = w.origin := by
  cases e with
  | completeRun => exact absurd rfl hne
  | clone =>
    have hstep : applyRefOp .clone w
        = { w with task := some { ref_count := c + 1, sched := s } } := by
      show inc_ref w = _
      exact inc_ref_task w c s hw (by omega)
    refine ⟨c + 1, by omega, ?_, ?_, ?_⟩ <;> rw [hstep]
    rcases hexec with h | h <;> subst h <;> simp [isInlineWake]
  | disposeOp ctx =>
    have hstep : applyRefOp (.disposeOp ctx) w
        = { w with task := some { ref_count := c - 1, sched := s } } := by
      show dec_ref ctx w = _
      rw [dec_ref_task ctx w c s hw (by omega) (by omega), if_neg (by omega)]
    refine ⟨c - 1, by omega, ?_, ?_, ?_⟩ <;> rw [hstep]
    rcases hexec with h | h <;> subst h <;> simp [isInlineWake]
  | wakeOp ctx =>
    by_cases hctx : ctx = w.origin
    · have hinl : applyRefOp (RefOp.wakeOp ctx) w = dec_ref_local (do_wake w) := by
        show wake ctx w = _
        unfold wake
        rw [call_inline ctx _ w ((is_on_right_thread_eq_ctx ctx w).mpr hctx)]
        rfl
      refine ⟨c - 1, by omega, ?_, ?_, ?_⟩ <;>
        rw [hinl, wake_inline_effect w c s hw hexec h2 (by omega)]
      have hiw : isInlineWake w.origin (RefOp.wakeOp ctx) = true := by
        simp only [isInlineWake]
        exact beq_iff_eq.mpr hctx
      simp [hiw]
    · have hoff : is_on_right_thread ctx w = false := by
        cases hbool : is_on_right_thread ctx w
        · rfl
        · exact absurd ((is_on_right_thread_eq_ctx ctx w).mp hbool) hctx
      obtain ⟨ht, ho, hr⟩ := call_queued ctx .wakeAndRelease w hoff
      have hiw : isInlineWake w.origin (RefOp.wakeOp ctx) = false := by
        simp only [isInlineWake]
        exact beq_eq_false_iff_ne.mpr hctx
      refine ⟨c, by omega, ?_, ?_, ?_⟩
      · show (wake ctx w).task = _
        unfold wake
        rw [ht, hw, hiw]
        rcases hexec with h | h <;> subst h <;> simp
      · show (wake ctx w).runQueue = _
        unfold wake
        rw [hr]
      · show (wake ctx w).origin = _
        unfold wake
        rw [ho]
  | wakeByRefOp ctx =>
    by_cases hctx : ctx = w.origin
    · have hinl : applyRefOp (RefOp.wakeByRefOp ctx) w = do_wake w := by
        show wake_by_ref ctx w = _
        unfold wake_by_ref
        rw [if_pos ((is_on_right_thread_eq_ctx ctx w).mpr hctx)]
      have hiw : isInlineWake w.origin (RefOp.wakeByRefOp ctx) = true := by
        simp only [isInlineWake]
        exact beq_iff_eq.mpr hctx
      have hdw : (do_wake w).task
          = some { ref_count := c, sched := .executing_with_pending_schedule } := by
        rcases hexec with h | h <;> subst h
        · rw [do_wake_executing w c hw]
        · rw [do_wake_pending w c hw]
          exact hw
      refine ⟨c, by omega, ?_, ?_, ?_⟩
      · rw [hinl, hdw, hiw]
        simp
      · rw [hinl]
        rcases hexec with h | h <;> subst h
        · rw [do_wake_executing w c hw]
        · rw [do_wake_pending w c hw]
      · rw [hinl]
        simp
    · have hoff : is_on_right_thread ctx w = false := by
        cases hbool : is_on_right_thread ctx w
        · rfl
        · exact absurd ((is_on_right_thread_eq_ctx ctx w).mp hbool) hctx
      have hstep1 : applyRefOp (RefOp.wakeByRefOp ctx) w
          = wake ctx { w with task := some { ref_count := c + 1, sched := s } } := by
        show wake_by_ref ctx w = _
        unfold wake_by_ref
        rw [if_neg (by simp [hoff]), inc_ref_task w c s hw (by omega)]
      have hoff2 : is_on_right_thread ctx
          { w with task := some { ref_count := c + 1, sched := s } } = false := hoff
      obtain ⟨ht, ho, hr⟩ := call_queued ctx .wakeAndRelease
        { w with task := some { ref_count := c + 1, sched := s } } hoff2
      have hiw : isInlineWake w.origin (RefOp.wakeByRefOp ctx) = false := by
        simp only [isInlineWake]
        exact beq_eq_false_iff_ne.mpr hctx
      refine ⟨c + 1, by omega, ?_, ?_, ?_⟩
      · rw [hstep1]
        show (wake ctx _).task = _
        unfold wake
        rw [ht, hiw]
        rcases hexec with h | h <;> subst h <;> simp
      · rw [hstep1]
        show (wake ctx _).runQueue = _
        unfold wake
        rw [hr]
      · rw [hstep1]
        show (wake ctx _).origin = _
        unfold wake
        rw [ho]

/-- Counting inline wakes across a cons. -/
theorem inlineWakeCount_cons (o : Ctx) (e : RefOp) (es : List RefOp) :
    inlineWakeCount o (e :: es)
      = (if isInlineWake o e = true then 1 else 0) + inlineWakeCount o es := by
  by_cases hp : isInlineWake o e = true <;>
    simp [inlineWakeCount, List.filter_cons, hp] <;> omega

/-- During the poll, a sequence of foreign calls (none of them a run of the
task itself) keeps the task alive, never touches the run queue or the owner
identity, and lands the state on executing_with_pending_schedule exactly
when the starting state was already that or at least one wake was delivered
inline on the owning thread. -/
theorem c4_aux (events : List RefOp) : ∀ (w : World) (c : Nat) (s : SchedState),
    w.task = some { ref_count := c, sched := s } →
    (s = .executing ∨ s = .executing_with_pending_schedule) →
    (∀ e ∈ events, e ≠ RefOp.completeRun) →
    events.length < c → c + events.length + 1 < u64Mod →
    ∃ c2, (applyRefOps events w).task = some { ref_count := c2, sched := if s = .executing_with_pending_schedule ∨ 0 < inlineWakeCount w.origin events then .executing_with_pending_schedule else .executing } ∧
      (applyRefOps events w).runQueue = w.runQueue ∧
      (applyRefOps events w).origin = w.origin := by
  induction events with
  | nil =>
    intro w c s hw hexec _ _ _
    refine ⟨c, ?_, rfl, rfl⟩
    show w.task = _
    rw [hw]
    rcases hexec with h | h <;> subst h <;> simp [inlineWakeCount]
  | cons e es ih =>
    intro w c s hw hexec hnc hlen hb
    rw [List.length_cons] at hlen hb
    obtain ⟨c2, hc2, ht, hr, ho⟩ := inrun_step e w c s hw hexec
      (hnc e (List.mem_cons_self _ _)) (by omega) (by omega)
    have hexec2 : (if s = SchedState.executing_with_pending_schedule ∨ isInlineWake w.origin e = true then SchedState.executing_with_pending_schedule else SchedState.executing) = .executing ∨ (if s = SchedState.executing_with_pending_schedule ∨ isInlineWake w.origin e = true then SchedState.executing_with_pending_schedule else SchedState.executing) = .executing_with_pending_schedule := by
      by_cases hcond : s = SchedState.executing_with_pending_schedule ∨ isInlineWake w.origin e = true
      · right
        rw [if_pos hcond]
      · left
        rw [if_neg hcond]
    obtain ⟨c3, ht3, hr3, ho3⟩ := ih (applyRefOp e w) c2 _ ht hexec2
      (fun e2 he2 => hnc e2 (List.mem_cons_of_mem _ he2)) (by omega) (by omega)
    rw [ho] at ht3
    have hcondeq : ((if s = SchedState.executing_with_pending_schedule ∨ isInlineWake w.origin e = true then SchedState.executing_with_pending_schedule else SchedState.executing) = SchedState.executing_with_pending_schedule ∨ 0 < inlineWakeCount w.origin es)
        ↔ (s = SchedState.executing_with_pending_schedule ∨ 0 < inlineWakeCount w.origin (e :: es)) := by
      rw [inlineWakeCount_cons]
      by_cases hp : isInlineWake w.origin e = true
      · simp [hp]
      · by_cases hs2 : s = SchedState.executing_with_pending_schedule <;> simp [hp, hs2]
    rw [if_congr hcondeq rfl rfl] at ht3
    exact ⟨c3, ht3, hr3.trans hr, ho3.trans ho⟩

/-- Projection form of a _sched_state assignment on a live task. -/
theorem set_sched_task_proj (w : World) (c : Nat) (s s2 : SchedState)
    (hw : w.task = some { ref_count := c, sched := s }) :
    (set_sched s2 w).task = some { ref_count := c, sched := s2 } := by
  rw [set_sched_task w c s s2 hw]

/-- A _sched_state assignment never touches the run queue. -/
@[simp] theorem set_sched_runQueue (s : SchedState) (w : World) :
    (set_sched s w).runQueue = w.runQueue := by
  rcases w with ⟨o, task, rq, sq, aq⟩
  rcases task with _ | ⟨c, s0⟩ <;> rfl

/-- A run of run_and_dispose whose poll does not report completion, written
out: poll from state executing, then either re-enqueue and set executing
(when the state at the end of the poll is executing_with_pending_schedule)
or set idle. -/
theorem run_with_poll_eq (events : List RefOp) (w : World) :
    run_and_dispose (fun w1 => (applyRefOps events w1, false)) w
      = (if sched_of (applyRefOps events (set_sched .executing w)) = some .executing_with_pending_schedule
         then set_sched .executing { applyRefOps events (set_sched .executing w) with runQueue := (applyRefOps events (set_sched .executing w)).runQueue + 1 }
         else set_sched .idle (applyRefOps events (set_sched .executing w))) := rfl

/-- Claim C4: in a run of the run contract whose poll does not report
completion, if wakes were delivered while the poll was executing, the state
at the end of the poll is executing_with_pending_schedule and the task is
re-enqueued exactly once on the owning worker's run queue with the state
set back to executing; otherwise the state is set to idle with no enqueue.
Any number of wakes delivered during execution coalesce into exactly one
further run, never zero and never more than one. -/
theorem c4_pending_reschedule_coalesces (events : List RefOp) (w : World)
    (c : Nat) (s : SchedState)
    (hw : w.task = some { ref_count := c, sched := s }) (hs : s ≠ .done)
    (hnc : ∀ e ∈ events, e ≠ RefOp.completeRun)
    (hlen : events.length < c) (hb : c + events.length + 1 < u64Mod) :
    (0 < inlineWakeCount w.origin events →
      (run_and_dispose (fun w1 => (applyRefOps events w1, false)) w).runQueue
          = w.runQueue + 1 ∧
      ∃ c2, (run_and_dispose (fun w1 => (applyRefOps events w1, false)) w).task
          = some { ref_count := c2, sched := .executing }) ∧
    (inlineWakeCount w.origin events = 0 →
      (run_and_dispose (fun w1 => (applyRefOps events w1, false)) w).runQueue
          = w.runQueue ∧
      ∃ c2, (run_and_dispose (fun w1 => (applyRefOps events w1, false)) w).task
          = some { ref_count := c2, sched := .idle }) := by
  have hset := set_sched_task w c s .executing hw
  have hw1 : (set_sched .executing w).task
      = some { ref_count := c, sched := .executing } := by
    rw [hset]
  obtain ⟨c2, ht, hr, ho⟩ := c4_aux events (set_sched .executing w) c .executing hw1
    (Or.inl rfl) hnc hlen hb
  have horig : (set_sched .executing w).origin = w.origin := by
    rw [hset]
  rw [horig] at ht
  have hrw : (set_sched .executing w).runQueue = w.runQueue := by
    rw [hset]
  rw [hrw] at hr
  have ht2 : (applyRefOps events (set_sched .executing w)).task
      = some { ref_count := c2, sched := if 0 < inlineWakeCount w.origin events then SchedState.executing_with_pending_schedule else SchedState.executing } := by
    rw [ht]
    simp
  rw [run_with_poll_eq events w]
  constructor
  · intro hpos
    rw [if_pos hpos] at ht2
    have hsched : sched_of (applyRefOps events (set_sched .executing w))
        = some SchedState.executing_with_pending_schedule := by
      simp only [sched_of]
      rw [ht2]
      rfl
    rw [if_pos hsched]
    constructor
    · simp [hr]
    · exact ⟨c2, set_sched_task_proj _ c2 .executing_with_pending_schedule .executing ht2⟩
  · intro hzero
    rw [hzero, if_neg (by omega)] at ht2
    have hsched : sched_of (applyRefOps events (set_sched .executing w))
        = some SchedState.executing := by
      simp only [sched_of]
      rw [ht2]
      rfl
    rw [if_neg (by rw [hsched]; simp)]
    constructor
    · simp [hr]
    · exact ⟨c2, set_sched_task_proj _ c2 .executing .idle ht2⟩

/-- Witness for C4 at a concrete input: one wake_by_ref delivered inline on
the owning thread while a task with three references is being polled
without completing re-enqueues the task exactly once. -/
theorem c4_witness :
    (run_and_dispose
        (fun w1 => (applyRefOps [RefOp.wakeByRefOp { engine := 0, shard := 0 }] w1, false))
        { origin := { engine := 0, shard := 0 },
          task := some { ref_count := 3, sched := .scheduled },
          runQueue := 0, smpQueue := [], alienQueue := [] }).runQueue = 0 + 1 :=
  ((c4_pending_reschedule_coalesces [RefOp.wakeByRefOp { engine := 0, shard := 0 }]
      { origin := { engine := 0, shard := 0 },
        task := some { ref_count := 3, sched := .scheduled },
        runQueue := 0, smpQueue := [], alienQueue := [] } 3 .scheduled rfl
      (by decide) (by decide) (by decide) (by decide)).1 (by decide)).1

/-- Claim C6: when the decrement that reaches zero happens off the owning
worker, the task is not deleted in place — the counter drops to 0, the
object survives the call, and the deletion callable is queued to the owning
worker through the dispatcher (intra-pool channel when the caller belongs
to the owning engine, foreign-ingress channel otherwise); processing that
callable on the owning worker is what deletes the task. -/
theorem c6_offthread_zero_decrement_relays_deletion (ctx : Ctx) (w : World)
    (t : TaskCore) (hw : w.task = some t) (h1 : t.ref_count = 1)
    (hoff : is_on_right_thread ctx w = false) :
    (dec_ref ctx w).task = some { ref_count := 0, sched := t.sched } ∧
    (ctx.engine = w.origin.engine →
      (dec_ref ctx w).smpQueue = w.smpQueue ++ [Msg.deleteSelf] ∧
      (dec_ref ctx w).alienQueue = w.alienQueue) ∧
    (ctx.engine ≠ w.origin.engine →
      (dec_ref ctx w).alienQueue = w.alienQueue ++ [Msg.deleteSelf] ∧
      (dec_ref ctx w).smpQueue = w.smpQueue) ∧
    (run_msg .deleteSelf (dec_ref ctx w)).task = none := by
  rcases t with ⟨c, s⟩
  simp only at h1
  subst h1
  have hd := dec_ref_task ctx w 1 s hw (by omega) (by unfold u64Mod; omega)
  rw [if_pos rfl] at hd
  have hoff2 : ¬(ctx.engine = w.origin.engine ∧ ctx.shard = w.origin.shard) := by
    intro hand
    rw [(is_on_right_thread_iff ctx w).mpr hand] at hoff
    cases hoff
  rw [hd]
  by_cases hE : ctx.engine = w.origin.engine
  · have hS : ¬(w.origin.shard = ctx.shard) := fun h => hoff2 ⟨hE, h.symm⟩
    unfold call_on_origin_thread smp_submit_to
    rw [if_neg (not_not_intro hE), if_neg hS]
    exact ⟨rfl, fun _ => ⟨rfl, rfl⟩, fun hne => absurd hE hne, rfl⟩
  · unfold call_on_origin_thread
    rw [if_pos hE]
    exact ⟨rfl, fun he => absurd he hE, fun _ => ⟨rfl, rfl⟩, rfl⟩

/-- Witness for C6 at a concrete input: a dispose from a sibling shard of
the owning engine, on a task whose only reference it holds, leaves the task
object alive with count 0 and queues the deletion on the intra-pool
channel. -/
theorem c6_witness :
    (dec_ref { engine := 0, shard := 1 } (initWorld { engine := 0, shard := 0 })).smpQueue
      = (initWorld { engine := 0, shard := 0 }).smpQueue ++ [Msg.deleteSelf] :=
  ((c6_offthread_zero_decrement_relays_deletion { engine := 0, shard := 1 }
      (initWorld { engine := 0, shard := 0 })
      { ref_count := 1, sched := .idle } rfl rfl (by decide)).2.1 rfl).1

/-- Claim C7: a call is on the right thread iff both the reactor-engine
identity and the worker index equal the captured owner identity; and the
dispatcher, given a callable that must run on the owning worker, runs it
inline (the result is exactly the owning worker running the callable, with
nothing queued) when the identity check holds, queues it on the intra-pool
channel when the caller shares the engine but not the shard, and queues it
on the engine's foreign-ingress channel when the caller's engine is
foreign. -/
theorem c7_identity_check_and_dispatch (ctx : Ctx) (m : Msg) (w : World) :
    (is_on_right_thread ctx w = true ↔
      (ctx.engine = w.origin.engine ∧ ctx.shard = w.origin.shard)) ∧
    (is_on_right_thread ctx w = true →
      call_on_origin_thread ctx m w = run_msg m w) ∧
    (ctx.engine = w.origin.engine → ctx.shard ≠ w.origin.shard →
      call_on_origin_thread ctx m w = { w with smpQueue := w.smpQueue ++ [m] }) ∧
    (ctx.engine ≠ w.origin.engine →
      call_on_origin_thread ctx m w = { w with alienQueue := w.alienQueue ++ [m] }) := by
  refine ⟨is_on_right_thread_iff ctx w, call_inline ctx m w, ?_, ?_⟩
  · intro hE hS
    unfold call_on_origin_thread smp_submit_to
    rw [if_neg (not_not_intro hE), if_neg (fun h => hS h.symm)]
  · intro hE
    unfold call_on_origin_thread
    rw [if_pos hE]
    rfl

/-- Witness for C7 at a concrete input: on the owning thread the dispatcher
runs the deletion callable inline. -/
theorem c7_witness :
    call_on_origin_thread { engine := 0, shard := 0 } Msg.deleteSelf
        (initWorld { engine := 0, shard := 0 })
      = run_msg Msg.deleteSelf (initWorld { engine := 0, shard := 0 }) :=
  (c7_identity_check_and_dispatch { engine := 0, shard := 0 } Msg.deleteSelf
      (initWorld { engine := 0, shard := 0 })).2.1 (by decide)

/-- Claim C8: wake_by_ref leaves the reference count unchanged. On the
owning thread it is exactly do_wake, which never touches the counter; from
any other thread it first increments the counter by one (keeping the task
alive across the relay) and then takes the consuming wake path, whose
processing on the owning worker releases exactly that reference, so the
settled result is do_wake with the original count. -/
theorem c8_wake_by_ref_preserves_ref_count (ctx : Ctx) (w : World) (c : Nat)
    (s : SchedState) (hw : w.task = some { ref_count := c, sched := s })
    (hq : queues_empty w) (h1 : 1 ≤ c) (hb : c + 1 < u64Mod) :
    (is_on_right_thread ctx w = true →
      wake_by_ref ctx w = do_wake w ∧
      ref_count_of (wake_by_ref ctx w) = some c) ∧
    (is_on_right_thread ctx w = false →
      ref_count_of (wake_by_ref ctx w) = some (c + 1) ∧
      applySettled (.wakeByRefOp ctx) w = do_wake w ∧
      ref_count_of (applySettled (.wakeByRefOp ctx) w) = some c) := by
  have hdoc : ref_count_of (do_wake w) = some c := by
    rw [do_wake_ref w]
    simp [ref_count_of, hw]
  constructor
  · intro hon
    have he : wake_by_ref ctx w = do_wake w := by
      unfold wake_by_ref
      rw [if_pos hon]
    exact ⟨he, by rw [he]; exact hdoc⟩
  · intro hoff
    have hsettle := settled_wakeByRefOp ctx w c s hw hq h1 hb
    refine ⟨?_, hsettle, by rw [hsettle]; exact hdoc⟩
    have hincr := inc_ref_task w c s hw hb
    have he : wake_by_ref ctx w = wake ctx (inc_ref w) := by
      unfold wake_by_ref
      rw [if_neg (by simp [hoff])]
    rw [he, hincr]
    obtain ⟨ht, -, -⟩ := call_queued ctx .wakeAndRelease
      { w with task := some { ref_count := c + 1, sched := s } } hoff
    show ref_count_of (call_on_origin_thread ctx .wakeAndRelease
      { w with task := some { ref_count := c + 1, sched := s } }) = _
    simp only [ref_count_of]
    rw [ht]
    rfl

/-- Witness for C8 at a concrete input: a wake_by_ref from a sibling shard
against a live idle task with two references first raises the count to 3
and, once the relayed callable is processed on the owning worker, leaves it
back at 2. -/
theorem c8_witness :
    ref_count_of (applySettled (.wakeByRefOp { engine := 0, shard := 1 })
        { origin := { engine := 0, shard := 0 },
          task := some { ref_count := 2, sched := .idle },
          runQueue := 0, smpQueue := [], alienQueue := [] }) = some 2 :=
  ((c8_wake_by_ref_preserves_ref_count { engine := 0, shard := 1 }
      { origin := { engine := 0, shard := 0 },
        task := some { ref_count := 2, sched := .idle },
        runQueue := 0, smpQueue := [], alienQueue := [] } 2 .idle rfl ⟨rfl, rfl⟩
      (by decide) (by decide)).2 (by decide)).2.2

/-- Counterexample for C10 as stated: a consuming wake issued on the owning
worker of the owning engine takes effect immediately at the call site —
the task is scheduled, the reference released, one run-queue entry added —
and no callable is left pending on either submission channel, because
smp::submit_to invokes a callable for the current shard synchronously. -/
theorem c10_wake_on_owner_immediate :
    wake { engine := 0, shard := 0 }
      { origin := { engine := 0, shard := 0 },
        task := some { ref_count := 2, sched := .idle },
        runQueue := 0, smpQueue := [], alienQueue := [] }
    = { origin := { engine := 0, shard := 0 },
        task := some { ref_count := 1, sched := .scheduled },
        runQueue := 1, smpQueue := [], alienQueue := [] } := by
  decide

/-- Claim C10 as amended: wake always routes through call_on_origin_thread
— unlike wake_by_ref it has no is_on_right_thread branch of its own — but
when issued on the owning worker the underlying smp::submit_to runs the
callable (do_wake then a local release) immediately at the call site; only
wakes from other workers or foreign threads are queued and take effect when
the owning worker processes its channels. -/
theorem c10_wake_routing (ctx : Ctx) (w : World) :
    wake ctx w = call_on_origin_thread ctx .wakeAndRelease w ∧
    (is_on_right_thread ctx w = true →
      wake ctx w = dec_ref_local (do_wake w)) ∧
    (ctx.engine = w.origin.engine → ctx.shard ≠ w.origin.shard →
      wake ctx w = { w with smpQueue := w.smpQueue ++ [Msg.wakeAndRelease] }) ∧
    (ctx.engine ≠ w.origin.engine →
      wake ctx w = { w with alienQueue := w.alienQueue ++ [Msg.wakeAndRelease] }) := by
  refine ⟨rfl, ?_, ?_, ?_⟩
  · intro hon
    show call_on_origin_thread ctx .wakeAndRelease w = _
    rw [call_inline ctx _ w hon]
    rfl
  · intro hE hS
    show call_on_origin_thread ctx .wakeAndRelease w = _
    unfold call_on_origin_thread smp_submit_to
    rw [if_neg (not_not_intro hE), if_neg (fun h => hS h.symm)]
  · intro hE
    show call_on_origin_thread ctx .wakeAndRelease w = _
    unfold call_on_origin_thread
    rw [if_pos hE]
    rfl

/-- Witness for the amended C10 at a concrete input: a wake from a sibling
shard of the owning engine only queues the callable on the intra-pool
channel. -/
theorem c10_witness :
    wake { engine := 0, shard := 1 } (initWorld { engine := 0, shard := 0 })
      = { initWorld { engine := 0, shard := 0 } with
          smpQueue := (initWorld { engine := 0, shard := 0 }).smpQueue ++ [Msg.wakeAndRelease] } :=
  (c10_wake_routing { engine := 0, shard := 1 }
    (initWorld { engine := 0, shard := 0 })).2.2.1 rfl (by decide)
